import Mathlib

/-!
Shallow embedding of `accessories.py` (repository `khafkaa/iter`), a small
library of utilities for iterables and collections, together with proofs of
its specified properties.

Modelling conventions:
* A Python `dict` is an association list `List (K × V)` whose keys are
  distinct, in insertion order (the invariant Python maintains); lookup is
  first-match.
* A Python iterable/iterator is a `List`; `next` is `List.head?` with
  `none` standing for `StopIteration`.
* A Python `str` is a `List Char` (wrapped back into `String` at the API).
* A fallible computation returns `Option`; `none` stands for a raised
  exception (`ValueError`, `KeyError`, `StopIteration`, `IndexError`).
* Recursive generators materialise their output as a `List`.
-/

namespace Accessories

/-! ### CustomDict (`accessories.py`, lines 10-33)

`CustomDict.set(assign=True, **kwargs)` iterates over the keyword
arguments and, for each `(key, value)` with `key not in self`, performs
`self[key] = value`.  Keyword arguments of a Python call always have
distinct keys.  -/

variable {K V : Type} [DecidableEq K]

/-- `key in self` for a dict modelled as an association list. -/
def dictContains (d : List (K × V)) (k : K) : Bool :=
  d.any (fun p => p.1 = k)

/-- `self[key]`: first-match lookup, `none` = `KeyError`. -/
def dictGet (d : List (K × V)) (k : K) : Option V :=
  (d.find? (fun p => p.1 = k)).map Prod.snd

/-- `self[key] = value`: update in place if present, else append
(Python dicts preserve insertion order). -/
def dictSetItem (d : List (K × V)) (k : K) (v : V) : List (K × V) :=
  if dictContains d k then
    d.map (fun p => if p.1 = k then (k, v) else p)
  else
    d ++ [(k, v)]

/-- One iteration of the loop in `CustomDict.set`:
`if key not in self: self[key] = value`. -/
def setStep (d : List (K × V)) (kv : K × V) : List (K × V) :=
  if dictContains d kv.1 then d else dictSetItem d kv.1 kv.2

/-- The loop of `CustomDict.set` over the keyword arguments (the resulting
dict contents; the `assign` flag only chooses whether the mutated dict is
also returned). -/
def customDictSet (d : List (K × V)) (kwargs : List (K × V)) : List (K × V) :=
  kwargs.foldl setStep d

/-- `CustomDict.set` with its `assign` flag: the mutated contents are
always `customDictSet d kwargs`; the return value is `some` of it iff
`assign is True`. -/
def customDictSetRet (d : List (K × V)) (assign : Bool) (kwargs : List (K × V)) :
    Option (List (K × V)) :=
  if assign then some (customDictSet d kwargs) else none

/-! ### chunks (`accessories.py`, lines 36-40)

```
def chunks(iterable, size):
  for i in range(0, len(iterable), size):
    yield iterable[i:i + size]
```
`range(0, stop, step)` raises `ValueError` when `step == 0`; for
`step < 0` and `stop ≥ 0` it is empty; for `step > 0` it is
`[0, step, 2*step, ...]` with `⌈stop/step⌉` elements. -/

/-- Python `range(0, stop, step)` for `stop ≥ 0`; `none` = `ValueError`
on a zero step. -/
def pyRange0 (stop : Nat) (step : Int) : Option (List Nat) :=
  if step = 0 then none
  else if step < 0 then some []
  else some ((List.range ((stop + step.toNat - 1) / step.toNat)).map
    (fun i => i * step.toNat))

/-- Python slice `l[i:j]` for `0 ≤ i ≤ j`. -/
def pySlice (l : List α) (i j : Nat) : List α :=
  (l.drop i).take (j - i)

/-- `chunks(iterable, size)`, fully consumed. -/
def chunks (l : List α) (size : Int) : Option (List (List α)) :=
  (pyRange0 l.length size).map
    (fun idxs => idxs.map (fun i => pySlice l i (i + size.toNat)))

/-- Recursive presentation of `chunks` for a positive size, used in proofs;
`fuel ≥ l.length` makes it total. -/
def chunksGo (fuel : Nat) (n : Nat) (l : List α) : List (List α) :=
  match fuel, l with
  | 0, _ => []
  | _, [] => []
  | fuel + 1, l => l.take n :: chunksGo fuel n (l.drop n)

/-! ### nth (`accessories.py`, lines 53-58)

`nth(iterable, index) = next(islice(iterable, index, index + 1))`. -/

/-- `itertools.islice(it, start, stop)` on a list iterator. -/
def islice (l : List α) (start stop : Nat) : List α :=
  (l.drop start).take (stop - start)

/-- `next(it)`: `none` = `StopIteration`. -/
def pyNext (l : List α) : Option α :=
  l.head?

/-- `nth(iterable, index)`. -/
def nth (l : List α) (index : Nat) : Option α :=
  pyNext (islice l index (index + 1))

/-! ### flatten (`accessories.py`, lines 43-50)

```
def flatten(iterable):
  for item in iterable:
    if isinstance(item, (list, tuple)):
      yield from flatten(item)
    else:
      yield item
```
A possibly deeply nested sequence of sequences and scalars. -/

/-- An item of a nested sequence: a scalar, or a sub-sequence
(Python `list`/`tuple`). -/
inductive Nested (α : Type) : Type where
  | scalar : α → Nested α
  | seq : List (Nested α) → Nested α

/-- Is the item a `list`/`tuple` (`isinstance(item, (list, tuple))`)? -/
def Nested.isSeq : Nested α → Bool
  | .scalar _ => false
  | .seq _ => true

/-- `flatten(iterable)`, fully consumed: the `isinstance` test on each loop
item is the match on its constructor — a sub-sequence is flattened
recursively (`yield from`), a scalar is yielded. -/
def flatten : List (Nested α) → List α
  | [] => []
  | .seq l :: rest => flatten l ++ flatten rest
  | .scalar a :: rest => a :: flatten rest

mutual

/-- Spec-side definition, from the spec's words: "all scalar leaves in
depth-first, left-to-right order". -/
def leavesDF : Nested α → List α
  | .scalar a => [a]
  | .seq l => leavesList l

/-- The depth-first leaves of a list of nested items, left to right. -/
def leavesList : List (Nested α) → List α
  | [] => []
  | x :: xs => leavesDF x ++ leavesList xs

end

/-! ### fetch (`accessories.py`, lines 61-87)

```
def fetch(iterable, token):
  if isinstance(iterable, dict):
    for key, value in iterable.items():
      if key == token:
        yield iterable[key]
      if isinstance(value, (dict, list)):
        yield from fetch(value, token)
  elif isinstance(iterable, list):
    for item in iterable:
      if isinstance(item, (dict, list)):
        yield from fetch(item, token)
```
Since the keys of a Python dict are distinct, `iterable[key]` inside the
loop is exactly the current `value`. -/

/-- A JSON-like value: mappings, sequences, and scalars. -/
inductive Json : Type where
  | null : Json
  | bool : Bool → Json
  | num : Int → Json
  | str : String → Json
  | arr : List Json → Json
  | obj : List (String × Json) → Json

/-- `isinstance(x, (dict, list))`. -/
def Json.isContainer : Json → Bool
  | .obj _ => true
  | .arr _ => true
  | _ => false

mutual

/-- `fetch(iterable, token)`, fully consumed.  A scalar argument matches
neither `isinstance` branch and yields nothing. -/
def fetch : Json → String → List Json
  | .obj entries, token => fetchEntries entries token
  | .arr items, token => fetchItems items token
  | _, _ => []

/-- The dict loop of `fetch`: yield the value whose key equals the token,
then recurse into container values. -/
def fetchEntries : List (String × Json) → String → List Json
  | [], _ => []
  | (key, value) :: rest, token =>
    (if key = token then [value] else []) ++
    (if value.isContainer then fetch value token else []) ++
    fetchEntries rest token

/-- The list loop of `fetch`: recurse into container items. -/
def fetchItems : List Json → String → List Json
  | [], _ => []
  | item :: rest, token =>
    (if item.isContainer then fetch item token else []) ++ fetchItems rest token

end

/-! ### multisub (`accessories.py`, lines 90-109)

```
def multisub(characters, string):
  regex = re.compile("|".join(map(re.escape, characters.keys())))
  return regex.sub(lambda match: characters[match.group(0)], string)
```
The pattern is an alternation of the escaped (hence literal) keys, in key
order.  `re.sub` scans left to right; at each position the first
alternative that matches wins, the lambda looks the matched text up in the
dict, and scanning resumes after the matched text, so inserted replacement
text is never re-scanned.  With zero keys the pattern is the empty
pattern, which matches the empty string at every position; the lambda then
looks up `""`, which raises `KeyError` on a dict without that key. -/

/-- The alternation of the literal keys, tried at one position of the
subject: alternatives are tried in key order and the first whose text is a
prefix of the remaining subject wins; the pattern built from zero keys is
the empty pattern, which matches the empty string everywhere. -/
def firstAlt (keys : List String) (s : List Char) : Option String :=
  match keys with
  | [] => some ""
  | _ => keys.find? (fun k => k.toList.isPrefixOf s)

/-- The scan of `regex.sub` over the subject, `fuel ≥ s.length`: a match
is replaced by `characters[match.group(0)]` and scanning resumes after the
matched text; a position with no match copies one character; after an
empty match the next character is copied.  `none` = a `KeyError` raised
by the replacement lambda. -/
def subGo (pairs : List (String × String)) : Nat → List Char → Option (List Char)
  | _, [] =>
    match firstAlt (pairs.map Prod.fst) [] with
    | none => some []
    | some k => (dictGet pairs k).map (fun rep => rep.toList)
  | 0, _ :: _ => none
  | fuel + 1, c :: rest =>
    match firstAlt (pairs.map Prod.fst) (c :: rest) with
    | none => (subGo pairs fuel rest).map (fun t => c :: t)
    | some k =>
      match dictGet pairs k with
      | none => none
      | some rep =>
        if k.length = 0 then
          (subGo pairs fuel rest).map (fun t => rep.toList ++ c :: t)
        else
          (subGo pairs fuel (rest.drop (k.length - 1))).map
            (fun t => rep.toList ++ t)

/-- `multisub(characters, string)`; `none` = `KeyError`. -/
def multisub (characters : List (String × String)) (s : String) :
    Option String :=
  (subGo characters s.toList.length s.toList).map (fun cs => String.mk cs)

/-! ### cleave (`accessories.py`, lines 112-132)

```
def cleave(string, char, anterior=True):
  if char in string:
    pos = string.find(char)
    result = string[:pos] if anterior is True else string[pos + 1:]
    return result
  return string
```
`anterior is True` is an identity test against the boolean singleton
`True`, not a truthiness test. -/

/-- A Python value passed as the `anterior` argument. -/
inductive PyVal : Type where
  | bool : Bool → PyVal
  | int : Int → PyVal
deriving DecidableEq

/-- Python truthiness of such a value. -/
def PyVal.truthy : PyVal → Bool
  | .bool b => b
  | .int n => n ≠ 0

/-- Python `x is True`: only the exact boolean `True` passes. -/
def PyVal.isTrue : PyVal → Bool
  | .bool b => b
  | .int _ => false

/-- `cleave(string, char, anterior)` on the character list of the string:
`char in string`; `pos = string.find(char)` is the index of the first
occurrence; `string[:pos]` / `string[pos + 1:]`. -/
def cleaveL (s : List Char) (c : Char) (anterior : PyVal) : List Char :=
  if c ∈ s then
    let pos := s.findIdx (fun x => x = c)
    if anterior.isTrue then s.take pos else s.drop (pos + 1)
  else s

/-- `cleave(string, char, anterior)` on `String`. -/
def cleave (s : String) (c : Char) (anterior : PyVal) : String :=
  String.mk (cleaveL s.toList c anterior)

/-! ## Helper lemmas -/

theorem head?_take_one (xs : List α) : (xs.take 1).head? = xs.head? := by
  cases xs <;> rfl

theorem head?_drop (l : List α) (i : Nat) : (l.drop i).head? = l[i]? := by
  induction l generalizing i with
  | nil => simp
  | cons a t ih =>
    cases i with
    | zero => simp
    | succ j => simp [ih j]

/-- `nth` agrees with safe indexing on lists. -/
theorem nth_eq_getElem? (l : List α) (i : Nat) : nth l i = l[i]? := by
  unfold nth islice pyNext
  rw [show i + 1 - i = 1 by omega, head?_take_one, head?_drop]

/-! ## Claims -/

/-- C3: `nth` consumes the first `index` elements of the iterable and
returns the element at that position (safe indexing on the list of
produced elements); it signals out-of-range (`StopIteration` from `next`,
modelled by `none`) exactly when the iterable is exhausted before
reaching the index.  In particular `nth(iter([10,20,30]), 1) == 20` and
`nth(iter([]), 0)` signals out-of-range. -/
theorem nth_spec :
    (∀ (α : Type) (l : List α) (i : Nat), nth l i = l[i]?) ∧
    (∀ (α : Type) (l : List α) (i : Nat), nth l i = none ↔ l.length ≤ i) ∧
    nth ([10, 20, 30] : List Int) 1 = some 20 ∧
    nth ([] : List Int) 0 = none := by
  refine ⟨fun α l i => nth_eq_getElem? l i, fun α l i => ?_, rfl, rfl⟩
  rw [nth_eq_getElem? l i]
  exact List.getElem?_eq_none_iff

/-- C7: `flatten` yields exactly the scalar leaves of the nested sequence
in depth-first, left-to-right order, and on
`[1, [2, [3, 4], 5], 6]` it yields `1, 2, 3, 4, 5, 6` in that order. -/
theorem flatten_spec :
    (∀ (α : Type) (l : List (Nested α)), flatten l = leavesList l) ∧
    flatten [Nested.scalar (1 : Int),
             Nested.seq [Nested.scalar 2,
                         Nested.seq [Nested.scalar 3, Nested.scalar 4],
                         Nested.scalar 5],
             Nested.scalar 6] = [1, 2, 3, 4, 5, 6] := by
  constructor
  · intro α l
    induction l using flatten.induct with
    | case1 => simp [flatten, leavesList]
    | case2 inner rest ih1 ih2 =>
      simp [flatten, leavesList, leavesDF, ih1, ih2]
    | case3 a rest ih =>
      simp [flatten, leavesList, leavesDF, ih]
  · simp [flatten]

theorem fetch_of_not_container (j : Json) (token : String)
    (h : j.isContainer = false) : fetch j token = [] := by
  cases j <;> simp_all [Json.isContainer, fetch]

theorem guarded_fetch (v : Json) (token : String) :
    (if v.isContainer then fetch v token else []) = fetch v token := by
  by_cases h : v.isContainer
  · simp [h]
  · simp only [Bool.not_eq_true] at h
    simp [h, fetch_of_not_container v token h]

/-- C4: on a mapping, `fetch` contributes, for each entry in order, the
value of a matching key first and then the results of searching that
value (a match at the current node is yielded before descending); on a
sequence it concatenates, in order, the results of searching each item;
and on `{"a": {"b": {"a": 1}}, "c": [{"a": 2}]}` with token `"a"` it
yields `{"b": {"a": 1}}`, `1`, `2`, in that depth-first order. -/
theorem fetch_spec :
    (∀ (entries : List (String × Json)) (token : String),
      fetch (Json.obj entries) token =
        entries.flatMap (fun kv =>
          (if kv.1 = token then [kv.2] else []) ++ fetch kv.2 token)) ∧
    (∀ (items : List Json) (token : String),
      fetch (Json.arr items) token =
        items.flatMap (fun item => fetch item token)) ∧
    fetch (Json.obj [("a", Json.obj [("b", Json.obj [("a", Json.num 1)])]),
                     ("c", Json.arr [Json.obj [("a", Json.num 2)]])]) "a" =
      [Json.obj [("b", Json.obj [("a", Json.num 1)])], Json.num 1, Json.num 2] := by
  refine ⟨fun entries token => ?_, fun items token => ?_, rfl⟩
  · show fetchEntries entries token = _
    induction entries with
    | nil => simp [fetchEntries]
    | cons kv rest ih =>
      obtain ⟨k, v⟩ := kv
      simp [fetchEntries, ih, guarded_fetch]
  · show fetchItems items token = _
    induction items with
    | nil => simp [fetchItems]
    | cons item rest ih =>
      simp [fetchItems, ih, guarded_fetch]

theorem not_mem_take_findIdx (s : List α) (p : α → Bool) (x : α)
    (hx : p x = true) : x ∉ s.take (s.findIdx p) := by
  intro hmem
  obtain ⟨i, hi, hget⟩ := List.getElem_of_mem hmem
  have hlt : i < s.findIdx p := by
    have := List.length_take (s.findIdx p) s
    omega
  have hnone := List.not_of_lt_findIdx hlt
  have : (s.take (s.findIdx p))[i]? = s[i]? := List.getElem?_take_of_lt hlt
  have hi' : i < s.length := Nat.lt_of_lt_of_le hlt (List.findIdx_le_length p)
  rw [List.getElem?_eq_getElem hi,
      List.getElem?_eq_getElem hi'] at this
  simp only [Option.some.injEq] at this
  rw [hget] at this
  rw [this] at hx
  rw [hnone] at hx
  exact Bool.false_ne_true hx

/-- C6: `cleave` with flag `True` returns the part of the string strictly
before the first occurrence of the delimiter, with flag `False` the part
strictly after it, and returns the string unchanged when the delimiter is
absent: the two parts have no occurrence of the delimiter before the cut
and recombine around it to the original string.  In particular
`cleave("name@gmail.com", "@") == "name"`,
`cleave("name@gmail.com", "@", anterior=False) == "gmail.com"`, and
`cleave("noatsign", "@") == "noatsign"`. -/
theorem cleave_spec :
    cleave "name@gmail.com" '@' (PyVal.bool true) = "name" ∧
    cleave "name@gmail.com" '@' (PyVal.bool false) = "gmail.com" ∧
    cleave "noatsign" '@' (PyVal.bool true) = "noatsign" ∧
    (∀ (s : List Char) (c : Char) (a : PyVal), c ∉ s → cleaveL s c a = s) ∧
    (∀ (s : List Char) (c : Char), c ∈ s →
      cleaveL s c (PyVal.bool true) ++ c :: cleaveL s c (PyVal.bool false) = s ∧
      c ∉ cleaveL s c (PyVal.bool true)) := by
  refine ⟨by decide, by decide, by decide, fun s c a h => ?_, fun s c hc => ?_⟩
  · simp [cleaveL, h]
  · have hpos : s.findIdx (fun x => x = c) < s.length :=
      List.findIdx_lt_length_of_exists ⟨c, hc, by simp⟩
    constructor
    · have hdrop : s.drop (s.findIdx (fun x => x = c)) =
          s[s.findIdx (fun x => x = c)] :: s.drop (s.findIdx (fun x => x = c) + 1) :=
        List.drop_eq_getElem_cons hpos
      have hget : s[s.findIdx (fun x => x = c)] = c := by
        have h1 := List.findIdx_of_getElem?_eq_some
          (List.getElem?_eq_getElem hpos)
        simpa using h1
      rw [hget] at hdrop
      simp only [cleaveL, if_pos hc, PyVal.isTrue, if_true, Bool.false_eq_true,
        if_false]
      rw [← hdrop, List.take_append_drop]
    · simp only [cleaveL, if_pos hc, PyVal.isTrue, if_true]
      exact not_mem_take_findIdx s (fun x => x = c) c (by simp)

/-- C10: because the source tests the flag with `anterior is True`
(identity, not truthiness), any truthy value other than the exact boolean
`True` — for example the integer `1` — selects the posterior part, the
same result as `anterior=False`; in particular
`cleave("name@gmail.com", "@", anterior=1) == "gmail.com"`. -/
theorem cleave_identity_flag (s : List Char) (c : Char) (v : PyVal)
    (hv : v.truthy = true) (hne : v ≠ PyVal.bool true) (hc : c ∈ s) :
    cleaveL s c v = cleaveL s c (PyVal.bool false) ∧
    cleave "name@gmail.com" '@' (PyVal.int 1) = "gmail.com" := by
  have hfalse : v.isTrue = false := by
    cases v with
    | bool b =>
      cases b with
      | true => exact absurd rfl hne
      | false => rfl
    | int n => rfl
  exact ⟨by simp [cleaveL, hfalse, show (PyVal.bool false).isTrue = false from rfl],
    by decide⟩

/-- Witness for `cleave_identity_flag`: the integer `1` is truthy, is not
the boolean `True`, and steers `cleave` to the posterior part. -/
theorem cleave_identity_flag_witness :
    cleaveL "a@b".toList '@' (PyVal.int 1) = cleaveL "a@b".toList '@' (PyVal.bool false) ∧
    cleave "name@gmail.com" '@' (PyVal.int 1) = "gmail.com" :=
  cleave_identity_flag "a@b".toList '@' (PyVal.int 1) (by decide) (by decide) (by decide)

/-- Witness for `cleave_spec`: the general parts at concrete inputs — a
string without the delimiter is returned unchanged, and for `"a@b"` the
two parts recombine around `'@'` and the anterior part has no `'@'`. -/
theorem cleave_spec_witness :
    cleaveL "xy".toList 'z' (PyVal.bool true) = "xy".toList ∧
    cleaveL "a@b".toList '@' (PyVal.bool true) ++
      '@' :: cleaveL "a@b".toList '@' (PyVal.bool false) = "a@b".toList ∧
    '@' ∉ cleaveL "a@b".toList '@' (PyVal.bool true) := by
  refine ⟨cleave_spec.2.2.2.1 "xy".toList 'z' (PyVal.bool true) (by decide), ?_, ?_⟩
  · exact (cleave_spec.2.2.2.2 "a@b".toList '@' (by decide)).1
  · exact (cleave_spec.2.2.2.2 "a@b".toList '@' (by decide)).2

theorem setStep_eq (d : List (K × V)) (kv : K × V) :
    setStep d kv = if dictContains d kv.1 then d else d ++ [kv] := by
  unfold setStep dictSetItem
  by_cases h : dictContains d kv.1 <;> simp [h]

theorem dictContains_append (d e : List (K × V)) (k : K) :
    dictContains (d ++ e) k = (dictContains d k || dictContains e k) := by
  simp [dictContains]

theorem dictGet_append_left (d e : List (K × V)) (k : K)
    (h : dictContains d k = true) : dictGet (d ++ e) k = dictGet d k := by
  unfold dictGet
  rw [List.find?_append]
  have hs : (d.find? (fun p => p.1 = k)).isSome := by
    rw [List.find?_isSome]
    unfold dictContains at h
    simpa using h
  obtain ⟨p, hp⟩ := Option.isSome_iff_exists.mp hs
  rw [hp]
  rfl

theorem dictGet_not_contains (d : List (K × V)) (k : K)
    (h : dictContains d k = false) : d.find? (fun p => p.1 = k) = none := by
  rw [List.find?_eq_none]
  unfold dictContains at h
  rw [List.any_eq_false] at h
  exact h

theorem customDictSet_present (k : K) (kwargs : List (K × V)) :
    ∀ d, dictContains d k = true →
      dictGet (customDictSet d kwargs) k = dictGet d k ∧
      dictContains (customDictSet d kwargs) k = true := by
  induction kwargs with
  | nil => exact fun d h => ⟨rfl, h⟩
  | cons kv rest ih =>
    intro d h
    have hstep : dictGet (setStep d kv) k = dictGet d k ∧
        dictContains (setStep d kv) k = true := by
      rw [setStep_eq]
      by_cases hc : dictContains d kv.1 = true
      · rw [if_pos hc]
        exact ⟨rfl, h⟩
      · rw [if_neg hc]
        refine ⟨dictGet_append_left d [kv] k h, ?_⟩
        rw [dictContains_append, h, Bool.true_or]
    have hrest := ih (setStep d kv) hstep.2
    unfold customDictSet at hrest ⊢
    rw [List.foldl_cons]
    exact ⟨hrest.1.trans hstep.1, hrest.2⟩

theorem customDictSet_absent (k : K) (v : V) (kwargs : List (K × V)) :
    ∀ d, (kwargs.map Prod.fst).Nodup → dictContains d k = false →
      (k, v) ∈ kwargs → dictGet (customDictSet d kwargs) k = some v := by
  induction kwargs with
  | nil => intro d _ _ hmem; exact absurd hmem (List.not_mem_nil _)
  | cons kv rest ih =>
    intro d hnodup habs hmem
    rw [List.map_cons, List.nodup_cons] at hnodup
    unfold customDictSet
    rw [List.foldl_cons]
    rcases List.mem_cons.mp hmem with heq | hrest
    · subst heq
      have hd' : setStep d (k, v) = d ++ [(k, v)] := by
        rw [setStep_eq, if_neg (by simp [habs])]
      have hget : dictGet (d ++ [(k, v)]) k = some v := by
        unfold dictGet
        rw [List.find?_append, dictGet_not_contains d k habs, Option.none_or]
        simp [List.find?_cons]
      have hcont : dictContains (d ++ [(k, v)]) k = true := by
        rw [dictContains_append, habs, Bool.false_or]
        simp [dictContains]
      rw [hd']
      exact ((customDictSet_present k rest (d ++ [(k, v)]) hcont).1).trans hget
    · have hne : kv.1 ≠ k := by
        intro hkv
        exact hnodup.1 (hkv ▸ List.mem_map_of_mem Prod.fst hrest)
      have habs' : dictContains (setStep d kv) k = false := by
        rw [setStep_eq]
        by_cases hc : dictContains d kv.1 = true
        · rw [if_pos hc]; exact habs
        · rw [if_neg hc, dictContains_append, habs, Bool.false_or]
          simp [dictContains, hne]
      exact ih (setStep d kv) hnodup.2 habs' hrest

/-- C1: `CustomDict.set` never overwrites a pre-existing key — if `k` was
already in the dict, its value after the call is its value before — and
every keyword key not previously present is inserted with its given value
(keyword arguments of a Python call have pairwise-distinct keys). -/
theorem customDictSet_spec (K V : Type) [DecidableEq K]
    (d kwargs : List (K × V)) (k : K) :
    (dictContains d k = true →
      dictGet (customDictSet d kwargs) k = dictGet d k) ∧
    ((kwargs.map Prod.fst).Nodup → dictContains d k = false →
      ∀ v, (k, v) ∈ kwargs → dictGet (customDictSet d kwargs) k = some v) :=
  ⟨fun h => (customDictSet_present k kwargs d h).1,
   fun hnodup habs v hmem => customDictSet_absent k v kwargs d hnodup habs hmem⟩

/-- Witness for `customDictSet_spec`: on `{"a": 1}` with keyword arguments
`a=5, b=2`, the pre-existing `"a"` keeps its value and the absent `"b"` is
inserted with value `2`. -/
theorem customDictSet_spec_witness :
    dictGet (customDictSet [("a", (1 : Int))] [("a", 5), ("b", 2)]) "a" =
      dictGet [("a", (1 : Int))] "a" ∧
    dictGet (customDictSet [("a", (1 : Int))] [("a", 5), ("b", 2)]) "b" =
      some 2 := by
  constructor
  · exact (customDictSet_spec String Int [("a", 1)] [("a", 5), ("b", 2)] "a").1
      (by decide)
  · exact (customDictSet_spec String Int [("a", 1)] [("a", 5), ("b", 2)] "b").2
      (by decide) (by decide) 2 (by decide)

theorem chunksGo_nil (fuel n : Nat) : chunksGo fuel n ([] : List α) = [] := by
  cases fuel <;> rfl

theorem chunksGo_cons (fuel n : Nat) (c : α) (t : List α) :
    chunksGo (fuel + 1) n (c :: t) =
      (c :: t).take n :: chunksGo fuel n ((c :: t).drop n) := by
  rfl

theorem ceil_div_pred (len n : Nat) (hn : 0 < n) (hl : 1 ≤ len) :
    (len + n - 1) / n - 1 = (len - n + n - 1) / n := by
  rcases le_or_lt n len with h | h
  · have e1 : len - n + n - 1 = len - 1 := by omega
    have e2 : len + n - 1 = (len - 1) + n := by omega
    rw [e1, e2, Nat.add_div_right _ hn, Nat.add_sub_cancel]
  · have e1 : len - n = 0 := by omega
    rw [e1]
    have e2 : (len + n - 1) / n = 1 := by
      apply Nat.div_eq_of_lt_le <;> omega
    rw [e2]
    have e3 : (0 + n - 1) / n = 0 := Nat.div_eq_of_lt (by omega)
    rw [e3]

theorem chunksGo_eq_range (n : Nat) (hn : 0 < n) :
    ∀ (fuel : Nat) (l : List α), l.length ≤ fuel →
      (List.range ((l.length + n - 1) / n)).map
        (fun i => (l.drop (i * n)).take n) = chunksGo fuel n l := by
  intro fuel
  induction fuel with
  | zero =>
    intro l hl
    have : l = [] := List.eq_nil_of_length_eq_zero (Nat.le_zero.mp hl)
    subst this
    rw [chunksGo_nil]
    have : (n - 1) / n = 0 := Nat.div_eq_of_lt (by omega)
    simp [this]
  | succ fuel ih =>
    intro l hl
    cases l with
    | nil =>
      rw [chunksGo_nil]
      have : (n - 1) / n = 0 := Nat.div_eq_of_lt (by omega)
      simp [this]
    | cons c t =>
      rw [chunksGo_cons]
      have hlen : 1 ≤ (c :: t).length := by simp
      have hm : ((c :: t).length + n - 1) / n =
          (((c :: t).length + n - 1) / n - 1) + 1 := by
        have : 1 ≤ ((c :: t).length + n - 1) / n := by
          rw [Nat.le_div_iff_mul_le hn]
          omega
        omega
      rw [hm, List.range_succ_eq_map, List.map_cons]
      congr 1
      · simp
      · rw [List.map_map]
        have harg : ∀ i : Nat,
            ((c :: t).drop ((Nat.succ i) * n)).take n =
              (((c :: t).drop n).drop (i * n)).take n := by
          intro i
          rw [List.drop_drop]
          congr 2
          rw [Nat.succ_mul]
          omega
        have hrw : (fun i => ((c :: t).drop (i * n)).take n) ∘ Nat.succ =
            fun i => (((c :: t).drop n).drop (i * n)).take n := by
          funext i
          exact harg i
        rw [hrw]
        have hlen2 : ((c :: t).drop n).length = (c :: t).length - n := by
          simp
        have hm2 : ((c :: t).length + n - 1) / n - 1 =
            (((c :: t).drop n).length + n - 1) / n := by
          rw [hlen2]
          exact ceil_div_pred (c :: t).length n hn hlen
        rw [hm2]
        apply ih
        rw [hlen2]
        simp only [List.length_cons] at hl ⊢
        omega

theorem chunks_pos_eq (l : List α) (n : Nat) (hn : 0 < n) :
    chunks l (n : Int) = some (chunksGo l.length n l) := by
  unfold chunks pyRange0
  rw [if_neg (by exact_mod_cast hn.ne'),
    if_neg (not_lt.mpr (Int.natCast_nonneg n))]
  simp only [Int.toNat_ofNat, Option.map_some']
  congr 1
  rw [List.map_map]
  have hf : (fun i => pySlice l i (i + n)) ∘ (fun i => i * n) =
      fun i => (l.drop (i * n)).take n := by
    funext i
    show (l.drop (i * n)).take (i * n + n - i * n) = (l.drop (i * n)).take n
    rw [Nat.add_sub_cancel_left]
  rw [hf]
  exact chunksGo_eq_range n hn l.length l le_rfl

theorem chunksGo_flatten (n : Nat) (hn : 0 < n) :
    ∀ (fuel : Nat) (l : List α), l.length ≤ fuel →
      (chunksGo fuel n l).flatten = l := by
  intro fuel
  induction fuel with
  | zero =>
    intro l hl
    have : l = [] := List.eq_nil_of_length_eq_zero (Nat.le_zero.mp hl)
    subst this
    rfl
  | succ fuel ih =>
    intro l hl
    cases l with
    | nil => rfl
    | cons c t =>
      have hlc : (c :: t).length = t.length + 1 := rfl
      rw [chunksGo_cons, List.flatten_cons, ih _ (by simp; omega),
        List.take_append_drop]

theorem chunksGo_dropLast_length (n : Nat) (hn : 0 < n) :
    ∀ (fuel : Nat) (l : List α), l.length ≤ fuel →
      ∀ c ∈ (chunksGo fuel n l).dropLast, c.length = n := by
  intro fuel
  induction fuel with
  | zero =>
    intro l hl
    have : l = [] := List.eq_nil_of_length_eq_zero (Nat.le_zero.mp hl)
    subst this
    intro c hc
    exact absurd hc (by simp [chunksGo_nil])
  | succ fuel ih =>
    intro l hl
    cases l with
    | nil => intro c hc; exact absurd hc (by simp [chunksGo_nil])
    | cons a t =>
      have hlc : (a :: t).length = t.length + 1 := rfl
      rw [chunksGo_cons]
      by_cases hr : chunksGo fuel n ((a :: t).drop n) = []
      · rw [hr]
        intro c hc
        exact absurd hc (by simp)
      · rw [List.dropLast_cons_of_ne_nil hr]
        intro c hc
        rcases List.mem_cons.mp hc with rfl | hc'
        · have hd : (a :: t).drop n ≠ [] := by
            intro hnil
            rw [hnil, chunksGo_nil] at hr
            exact hr rfl
          have hlen : n < (a :: t).length := by
            by_contra hle
            exact hd (List.drop_eq_nil_of_le (by omega))
          simp [List.length_take]
          omega
        · exact ih ((a :: t).drop n) (by simp; omega) c hc'

/-- C2: for every positive chunk size `n`, `chunks` succeeds, the
concatenation of the produced chunks, in order, is the original sequence,
and every produced chunk except possibly the last has length exactly
`n`. -/
theorem chunks_spec (α : Type) (l : List α) (n : Nat) (hn : 0 < n) :
    ∃ cs, chunks l (n : Int) = some cs ∧ cs.flatten = l ∧
      ∀ c ∈ cs.dropLast, c.length = n :=
  ⟨chunksGo l.length n l, chunks_pos_eq l n hn,
   chunksGo_flatten n hn l.length l le_rfl,
   chunksGo_dropLast_length n hn l.length l le_rfl⟩

/-- Witness for `chunks_spec`: chunking `[1,2,3,4,5]` with size `2`. -/
theorem chunks_spec_witness :
    ∃ cs, chunks ([1, 2, 3, 4, 5] : List Int) ((2 : Nat) : Int) = some cs ∧
      cs.flatten = [1, 2, 3, 4, 5] ∧ ∀ c ∈ cs.dropLast, c.length = 2 :=
  chunks_spec Int [1, 2, 3, 4, 5] 2 (by decide)

/-- C8 counterexample: for the negative chunk size `-1` the code does not
signal an error — `range(0, len, -1)` is simply empty — so `chunks`
silently produces no chunks instead of failing. -/
theorem chunks_neg_size_counterexample :
    chunks ([1, 2, 3] : List Int) (-1) = some [] ∧
    chunks ([1, 2, 3] : List Int) (-1) ≠ none := by
  refine ⟨rfl, ?_⟩
  intro h
  simp [chunks, pyRange0] at h

/-- C8 amended: only a zero chunk size signals an error (`ValueError`
raised by `range` for a zero step, modelled by `none`); every negative
size silently yields no chunks. -/
theorem chunks_nonpos_spec (α : Type) (l : List α) (size : Int)
    (h : size ≤ 0) :
    chunks l size = if size = 0 then none else some [] := by
  unfold chunks pyRange0
  by_cases h0 : size = 0
  · rw [if_pos h0, if_pos h0]
    rfl
  · have hneg : size < 0 := lt_of_le_of_ne h h0
    rw [if_neg h0, if_pos hneg, if_neg h0]
    rfl

/-- Witness for `chunks_nonpos_spec`: size `0` errors, size `-2` yields
no chunks. -/
theorem chunks_nonpos_spec_witness :
    chunks ([1, 2] : List Int) 0 = (if (0 : Int) = 0 then none else some []) ∧
    chunks ([1, 2] : List Int) (-2) =
      (if (-2 : Int) = 0 then none else some []) :=
  ⟨chunks_nonpos_spec Int [1, 2] 0 (by decide),
   chunks_nonpos_spec Int [1, 2] (-2) (by decide)⟩

theorem string_mk_toList (s : String) : String.mk s.toList = s := rfl

theorem subGo_no_match (pairs : List (String × String)) :
    ∀ (fuel : Nat) (s : List Char), s.length ≤ fuel →
      (∀ t : List Char, t.IsSuffix s → firstAlt (pairs.map Prod.fst) t = none) →
      subGo pairs fuel s = some s := by
  intro fuel
  induction fuel with
  | zero =>
    intro s hl hno
    have : s = [] := List.eq_nil_of_length_eq_zero (Nat.le_zero.mp hl)
    subst this
    show subGo pairs 0 [] = some []
    unfold subGo
    rw [hno [] (List.suffix_refl [])]
  | succ fuel ih =>
    intro s hl hno
    cases s with
    | nil =>
      show subGo pairs (fuel + 1) [] = some []
      unfold subGo
      rw [hno [] (List.suffix_refl [])]
    | cons c rest =>
      show subGo pairs (fuel + 1) (c :: rest) = some (c :: rest)
      unfold subGo
      rw [hno (c :: rest) (List.suffix_refl _)]
      rw [ih rest (by simp at hl; omega)
        (fun t ht => hno t (ht.trans (List.suffix_cons c rest)))]
      rfl

/-- C5: `multisub` replaces every non-overlapping occurrence of any
mapping key in a single left-to-right pass.
`multisub({"a": "1", "b": "2"}, "abc") == "12c"`;
`multisub({"a": "b", "b": "c"}, "ab") == "bc"` — the inserted `"b"` is
not re-scanned, otherwise the result would be `"cc"`;
`multisub({"ab": "X", "a": "Y"}, "abc") == "Xc"` and
`multisub({"a": "Y", "ab": "X"}, "abc") == "Ybc"` — at each position the
first matching alternative, in key order, wins; and a subject at none of
whose positions any key matches is returned unchanged. -/
theorem multisub_spec :
    multisub [("a", "1"), ("b", "2")] "abc" = some "12c" ∧
    multisub [("a", "b"), ("b", "c")] "ab" = some "bc" ∧
    multisub [("ab", "X"), ("a", "Y")] "abc" = some "Xc" ∧
    multisub [("a", "Y"), ("ab", "X")] "abc" = some "Ybc" ∧
    (∀ (pairs : List (String × String)) (s : String),
      (∀ t : List Char, t.IsSuffix s.toList →
        firstAlt (pairs.map Prod.fst) t = none) →
      multisub pairs s = some s) := by
  refine ⟨by decide, by decide, by decide, by decide, fun pairs s hno => ?_⟩
  unfold multisub
  rw [subGo_no_match pairs s.toList.length s.toList le_rfl hno]
  rw [Option.map_some', string_mk_toList]

/-- Witness for `multisub_spec`: no key of `{"b": "z"}` occurs anywhere
in `"a"`, so the subject comes back unchanged. -/
theorem multisub_spec_witness : multisub [("b", "z")] "a" = some "a" := by
  apply multisub_spec.2.2.2.2 [("b", "z")] "a"
  intro t ht
  obtain ⟨pre, hpre⟩ := ht
  cases pre with
  | nil =>
    simp only [List.nil_append] at hpre
    subst hpre
    decide
  | cons x xs =>
    have ha : "a".toList = ['a'] := rfl
    rw [ha] at hpre
    simp only [List.cons_append, List.cons.injEq, List.append_eq_nil] at hpre
    obtain ⟨hx, hxs, ht⟩ := hpre
    subst ht
    decide

/-- C9 counterexample: with an empty mapping `multisub` does not return
the subject unchanged — it fails: the pattern built from zero keys is the
empty pattern, which matches the empty string at position 0, and the
replacement lambda's lookup of the empty matched text in the empty dict
raises `KeyError`. -/
theorem multisub_empty_counterexample :
    multisub [] "abc" = none ∧ multisub [] "abc" ≠ some "abc" := by
  refine ⟨by decide, by decide⟩

/-- C9 amended: `multisub` is total for a subject at none of whose
positions the empty-pattern case arises, but on the empty mapping it
fails with `KeyError` for every subject string instead of returning the
subject unchanged. -/
theorem multisub_empty_fails (s : String) : multisub [] s = none := by
  unfold multisub
  have h : subGo [] s.toList.length s.toList = none := by
    cases hs : s.toList with
    | nil => rfl
    | cons c rest => rfl
  rw [h]
  rfl

end Accessories
